import Mathlib

/-!
Verification development for the block-template assembly core of `src/miner.cpp`
(standard-mode `CreateNewBlock`, fork-mode `CreateNewForkBlock`, `UpdateTime`,
and the helpers they use).  Machine integers are modelled as `Nat`/`Int` with an
explicit `% 2^w` at the points where the C++ arithmetic wraps.
-/

/-- A byte string (script, file contents); each entry is one byte value. -/
abbrev Bytes := List Nat

/-- Modelled from the spec: `bytes2uint64` (defined outside `src/`) reads an
8-byte little-endian unsigned integer.  `leVal` is the little-endian value of a
byte list. -/
def leVal : Bytes → Nat
  | [] => 0
  | b :: bs => b + 256 * leVal bs

/-- Fixed-width little-endian byte encoding (used to build concrete snapshot
files for witnesses). -/
def leBytes : Nat → Nat → Bytes
  | 0, _ => []
  | k+1, n => (n % 256) :: leBytes k (n / 256)

/-- Base-256 little-endian digits (auxiliary, structurally recursive on a
fuel argument that the wrapper instantiates adequately). -/
def natLEAux : Nat → Nat → Bytes
  | _, 0 => []
  | 0, _ + 1 => []
  | fuel + 1, n + 1 => ((n + 1) % 256) :: natLEAux fuel ((n + 1) / 256)

/-- Base-256 little-endian digits of a natural number with no leading zero,
as produced by the absolute-value loop of `CScriptNum::serialize`. -/
def natLE (n : Nat) : Bytes := natLEAux n n

/-- Modelled from the spec: `CScriptNum::serialize` (script.h is outside
`src/`): minimal little-endian magnitude with a sign bit in the top byte. -/
def scriptNumEncode (n : Int) : Bytes :=
  if n = 0 then []
  else
    match (natLE n.natAbs).getLast? with
    | none => []
    | some last =>
      if 128 ≤ last then natLE n.natAbs ++ [if n < 0 then 128 else 0]
      else if n < 0 then (natLE n.natAbs).dropLast ++ [last + 128]
      else natLE n.natAbs

/-- The `OP_0` opcode byte. -/
def OP_0 : Nat := 0

/-- The `OP_1NEGATE` opcode byte. -/
def OP_1NEGATE : Nat := 79

/-- Modelled from the spec: a `CScript` data push: length prefix (direct, or an
`OP_PUSHDATA1`/`OP_PUSHDATA2` form for longer data) followed by the data. -/
def pushData (d : Bytes) : Bytes :=
  if d.length < 76 then d.length :: d
  else if d.length < 256 then 76 :: d.length :: d
  else 77 :: (d.length % 256) :: (d.length / 256 % 256) :: d

/-- Modelled from the spec: `CScript::push_int64`: `-1` and `1..16` become
single opcodes, `0` becomes `OP_0`, anything else a `CScriptNum` data push. -/
def pushInt64 (n : Int) : Bytes :=
  if n = -1 then [OP_1NEGATE]
  else if 1 ≤ n ∧ n ≤ 16 then [80 + n.toNat]
  else if n = 0 then [OP_0]
  else pushData (scriptNumEncode n)

/-- The fork coinbase `scriptSig` assembled at miner.cpp:232 and 401-404:
`push(height) ‖ push(CScriptNum(index)) ‖ push(hashPid) when index = 0 ‖ OP_0`.
(Both assignment sites attach `hashPid` exactly when `nBlockTx == 0`.) -/
def coinbaseScriptSig (height : Int) (idx : Nat) (pid : Bytes) : Bytes :=
  pushInt64 height ++ pushData (scriptNumEncode (idx : Int)) ++
    (if idx = 0 then pushData pid else []) ++ [OP_0]

/-- A transaction output reference; `none` in `TxIn.prevout` models the null
outpoint set by `prevout.SetNull()`. -/
structure OutPoint where
  hash : Nat
  n : Nat
deriving DecidableEq

structure TxIn where
  prevout : Option OutPoint
  scriptSig : Bytes
deriving DecidableEq

structure TxOut where
  nValue : Int
  scriptPubKey : Bytes
deriving DecidableEq

/-- A transaction: inputs, outputs, and opaque shielded-transfer descriptors
(`vjoinsplit` data), which the miner passes through byte-identically. -/
structure Transaction where
  vin : List TxIn := []
  vout : List TxOut := []
  shielded : Bytes := []
deriving DecidableEq, Inhabited

/-- `CTransaction::IsCoinBase`: exactly one input and its prevout is null. -/
def Transaction.IsCoinBase (t : Transaction) : Bool :=
  t.vin.length == 1 && (t.vin.headD ⟨some ⟨0, 0⟩, []⟩).prevout.isNone

/-- Reading `k` bytes from `file` at `pos` (`std::ifstream::read`): succeeds
iff `k` bytes remain; a zero-byte read always succeeds. -/
def readB (file : Bytes) (pos k : Nat) : Option Bytes :=
  if pos + k ≤ file.length then some ((file.drop pos).take k) else none

/-- `strtol(buf, _, 2)` over the 32-byte shielded size field: value of the
leading run of ASCII binary digits. -/
def parseBin (l : Bytes) : Nat := go 0 l where
  go (acc : Nat) : Bytes → Nat
    | [] => acc
    | b :: bs => if b = 48 ∨ b = 49 then go (acc * 2 + (b - 48)) bs else acc

/-- Why the transparent-format reader stopped. -/
inductive ForkStop
  | cleanEof   -- amount read failed at EOF with the height last in the fork window
  | corrupt    -- one of the "UTXO file corrupted?" breaks
  | sizeZero   -- shielded format: parsed transaction size is zero
  | capCount   -- transparent while-condition `nBlockTx < forkCBPerBlock` became false
  | capSize    -- block would exceed max size
  | capSigops  -- block would exceed max sigops
  | abortBadAlloc -- negative int script length: new char[pbsize] throws
deriving DecidableEq

/-- Configuration and chain-parameter inputs of `CreateNewForkBlock`. -/
structure ForkCfg where
  nHeight : Int
  forkStartHeight : Int
  forkHeightRange : Int
  zStart : Int             -- ZUtxoMiningStartBlock
  forkCBPerBlock : Nat
  hashPid : Bytes          -- ToByteVector(hashPid), 32 bytes
  dummyPubKey : Bytes      -- the 64 (uninitialized) bytes of the dummy coinbase's scriptPubKey
  maxBlockSize : Nat       -- MAX_BLOCK_SIZE
  maxBlockSigops : Nat     -- MAX_BLOCK_SIGOPS

/-- External collaborators of the fork builder, consumed through narrow
contracts: `GetSerializeSize`, `GetLegacySigOpCount` and the shielded
hex-decode (`decoderawtransaction2`/`DecodeHexTx`), none of which are under
`src/`. -/
structure ForkEnv where
  serSize : Transaction → Nat
  sigOps : Transaction → Nat
  decode : Bytes → Transaction

/-- The mutable state of the fork body-fill loops (template under
construction plus the running accumulators of `CreateNewForkBlock`). -/
structure TState where
  vtx : List Transaction
  vTxFees : List Int
  vTxSigOps : List Int
  nBlockSize : Nat
  nBlockSigOps : Nat
  nBlockTx : Nat
  nBlockTotalAmount : Nat
  pos : Nat
  stop : Option ForkStop
deriving DecidableEq

/-- The synthetic coinbase built from one transparent record
(miner.cpp:384-404): one null-prevout input with the height/index/hashPid
scriptSig, one output carrying the record script and the amount under the
doubling rule `!(value) == 0`, i.e. doubled exactly when non-zero (uint64
multiplication, hence the explicit wrap at 2^64). -/
def forkRecordTx (cfg : ForkCfg) (idx : Nat) (amount : Nat) (script : Bytes) :
    Transaction :=
  { vin := [⟨none, coinbaseScriptSig cfg.nHeight idx cfg.hashPid⟩],
    vout := [⟨((if amount = 0 then 0 else (2 * amount) % 2 ^ 64 : Nat) : Int), script⟩],
    shielded := [] }

/-- Appending one transparent record's coinbase to the template
(miner.cpp:423-429), advancing the read position past the record. -/
def forkAppend (cfg : ForkCfg) (env : ForkEnv) (st : TState) (amount pbsize : Nat)
    (script : Bytes) : TState :=
  { vtx := st.vtx ++ [forkRecordTx cfg st.nBlockTx amount script]
    vTxFees := st.vTxFees ++ [0]
    vTxSigOps := st.vTxSigOps ++ [(env.sigOps (forkRecordTx cfg st.nBlockTx amount script) : Int)]
    nBlockSize := st.nBlockSize + env.serSize (forkRecordTx cfg st.nBlockTx amount script)
    nBlockSigOps := st.nBlockSigOps + env.sigOps (forkRecordTx cfg st.nBlockTx amount script)
    nBlockTx := st.nBlockTx + 1
    nBlockTotalAmount := st.nBlockTotalAmount + amount
    pos := st.pos + 16 + pbsize
    stop := none }

/-- The tail of one transparent-format iteration once the three reads
succeeded: the size and sigop caps, the append, and the `0x0A` record
separator check (miner.cpp:406-435). -/
def forkAfterReads (cfg : ForkCfg) (env : ForkEnv) (file : Bytes) (st : TState)
    (amount pbsize : Nat) (script : Bytes) : TState :=
  if cfg.maxBlockSize - 1000 ≤
      st.nBlockSize + env.serSize (forkRecordTx cfg st.nBlockTx amount script) then
    { st with stop := some .capSize }
  else if cfg.maxBlockSigops ≤
      st.nBlockSigOps + env.sigOps (forkRecordTx cfg st.nBlockTx amount script) then
    { st with stop := some .capSigops }
  else
    match readB file (forkAppend cfg env st amount pbsize script).pos 1 with
    | none => { forkAppend cfg env st amount pbsize script with stop := some .corrupt }
    | some t =>
      if t = [10] then
        { forkAppend cfg env st amount pbsize script with
          pos := (forkAppend cfg env st amount pbsize script).pos + 1 }
      else { forkAppend cfg env st amount pbsize script with stop := some .corrupt }

/-- One iteration of the transparent-format loop (miner.cpp:342-436), assuming
the `while` condition held.  `int pbsize = bytes2uint64(pubkeysize)`
(miner.cpp:363) truncates the 8-byte field to a signed 32-bit int: the low 32
bits are kept, and when they carry the sign bit (`2^31 ≤ leVal pk % 2^32`) the
`new char[pbsize]` allocation with a negative bound throws
`std::bad_array_new_length` — the exception escapes `CreateNewForkBlock`
uncaught, so no template is produced; `.abortBadAlloc` marks the loop state at
that point.  A `pbsize` of zero is logged "but proceed" and does not stop the
reader. -/
def forkStepT (cfg : ForkCfg) (env : ForkEnv) (file : Bytes) (st : TState) : TState :=
  match readB file st.pos 8 with
  | none =>
    -- the last file may be shorter than forkCBPerBlock: eof at the amount
    -- field is clean exactly when the height is the last in the fork window
    { st with stop := some (if cfg.nHeight - cfg.forkStartHeight = cfg.forkHeightRange
                            then .cleanEof else .corrupt) }
  | some coin =>
    match readB file (st.pos + 8) 8 with
    | none => { st with stop := some .corrupt }
    | some pk =>
      if 2 ^ 31 ≤ leVal pk % 2 ^ 32 then { st with stop := some .abortBadAlloc }
      else
        match readB file (st.pos + 16) (leVal pk % 2 ^ 32) with
        | none => { st with stop := some .corrupt }
        | some script =>
          forkAfterReads cfg env file st (leVal coin) (leVal pk % 2 ^ 32) script

/-- The transparent-format loop `while (if_utxo && nBlockTx < forkCBPerBlock)`. -/
def loopT (cfg : ForkCfg) (env : ForkEnv) (file : Bytes) : Nat → TState → TState
  | 0, st => st
  | fuel + 1, st =>
    if st.stop.isSome then st
    else if cfg.forkCBPerBlock ≤ st.nBlockTx then { st with stop := some .capCount }
    else loopT cfg env file fuel (forkStepT cfg env file st)

/-- `vin.resize(1); vin[0].prevout.SetNull(); vout.resize(1); vout[0].nValue = 0`
applied to a decoded shielded transaction (miner.cpp:300-309): the first input
keeps its scriptSig but loses its prevout, the first output keeps its
scriptPubKey but its value is zeroed, and the shielded descriptors are
untouched. -/
def shapeShielded (t : Transaction) : Transaction :=
  { t with
    vin := match t.vin with
           | [] => [⟨none, []⟩]
           | i :: _ => [{ i with prevout := none }]
    vout := match t.vout with
            | [] => [⟨0, []⟩]
            | o :: _ => [{ o with nValue := 0 }] }

/-- One iteration of the shielded-format loop (miner.cpp:244-339), assuming the
loop was entered.  Note: there is no `nBlockTx < forkCBPerBlock` condition and
no scriptSig assignment on this path. -/
def forkStepZ (cfg : ForkCfg) (env : ForkEnv) (file : Bytes) (st : TState) : TState :=
  match readB file st.pos 32 with
  | none => { st with stop := some .corrupt }   -- "Coudn't read the transaction size"
  | some ts =>
    if parseBin ts = 0 then { st with stop := some .sizeZero }
    else
      match readB file (st.pos + 32) (parseBin ts) with
      | none => { st with stop := some .corrupt }
      | some raw =>
        if cfg.maxBlockSize - 1000 ≤
            st.nBlockSize + env.serSize (shapeShielded (env.decode raw)) then
          { st with stop := some .capSize }
        else if cfg.maxBlockSigops ≤
            st.nBlockSigOps + env.sigOps (shapeShielded (env.decode raw)) then
          { st with stop := some .capSigops }
        else
          { st with
            vtx := st.vtx ++ [shapeShielded (env.decode raw)]
            vTxFees := st.vTxFees ++ [0]
            vTxSigOps := st.vTxSigOps ++ [(env.sigOps (shapeShielded (env.decode raw)) : Int)]
            nBlockSize := st.nBlockSize + env.serSize (shapeShielded (env.decode raw))
            nBlockSigOps := st.nBlockSigOps + env.sigOps (shapeShielded (env.decode raw))
            nBlockTx := st.nBlockTx + 1
            pos := st.pos + 32 + parseBin ts }

/-- The shielded-format `while (true)` loop.  (The `if_utxo.eof()` check at its
top can never fire in this byte-exact model because every read that reaches end
of data breaks out of the loop directly.) -/
def loopZ (cfg : ForkCfg) (env : ForkEnv) (file : Bytes) : Nat → TState → TState
  | 0, st => st
  | fuel + 1, st =>
    if st.stop.isSome then st
    else loopZ cfg env file fuel (forkStepZ cfg env file st)

/-- The dummy coinbase installed as element 0 of a fork template
(miner.cpp:222-236): one null-prevout input whose scriptSig carries the height,
index 0 and `hashPid`, and one zero-value output with 64 junk bytes of
scriptPubKey. -/
def forkDummyCoinbase (cfg : ForkCfg) : Transaction :=
  { vin := [⟨none, coinbaseScriptSig cfg.nHeight 0 cfg.hashPid⟩],
    vout := [⟨0, cfg.dummyPubKey⟩],
    shielded := [] }

/-- The template state entering the body-fill loops: the dummy coinbase with
its `-1` fee and sigop placeholders ("updated at end"), the 1000-byte size
reserve and the 100 sigop reserve (miner.cpp:216-236). -/
def forkInit (cfg : ForkCfg) : TState :=
  { vtx := [forkDummyCoinbase cfg]
    vTxFees := [-1]
    vTxSigOps := [-1]
    nBlockSize := 1000
    nBlockSigOps := 100
    nBlockTx := 0
    nBlockTotalAmount := 0
    pos := 0
    stop := none }

/-- `CreateNewForkBlock(bFileNotFound, nHeight)` (miner.cpp:185-455).
`file = none` models an unopenable snapshot file (`bFileNotFound`, result
NULL); otherwise one of the two framing loops fills the body after the dummy
coinbase. -/
def createNewForkBlock (cfg : ForkCfg) (env : ForkEnv) (file : Option Bytes) :
    Option TState :=
  match file with
  | none => none
  | some f =>
    some (if cfg.nHeight = cfg.zStart
          then loopZ cfg env f (f.length + 1) (forkInit cfg)
          else loopT cfg env f (f.length + 1) (forkInit cfg))

/-- `UpdateTime` (miner.cpp:124-131): set the header time to
`max(medianTimePast + 1, adjustedNow)` and, only when the network allows
min-difficulty blocks, recompute `nBits` from the updated header. -/
structure BlockHeader where
  nTime : Int
  nBits : Nat
deriving DecidableEq

def UpdateTime (pblock : BlockHeader) (fPowAllowMinDifficultyBlocks : Bool)
    (medianTimePast adjustedNow : Int) (getNextWorkRequired : BlockHeader → Nat) :
    BlockHeader :=
  let b := { pblock with nTime := max (medianTimePast + 1) adjustedNow }
  if fPowAllowMinDifficultyBlocks then { b with nBits := getNextWorkRequired b } else b

/-! ## Standard mode: `CreateNewBlock` (miner.cpp:783-1039) -/

/-- A priority-queue entry `TxPriority = (dPriority, feeRate, tx)`, with the
transaction referenced by its hash.  Priorities and fee rates are the scores
computed in the initial pass (doubles and `CFeeRate` in the source, modelled
as integers: only their ordering is consumed). -/
abbrev QEntry := Int × Int × Nat

/-- `TxPriorityCompare::operator()` (miner.cpp:110-121): strict "less-than"
between entries, by fee rate then priority when `byFee`, and by priority then
fee rate otherwise. -/
def lessQ (byFee : Bool) (a b : QEntry) : Bool :=
  if byFee then
    if a.2.1 = b.2.1 then a.1 < b.1 else a.2.1 < b.2.1
  else
    if a.1 = b.1 then a.2.1 < b.2.1 else a.1 < b.1

/-- Popping the top of the `make_heap`/`pop_heap` priority queue: a maximal
element under `lessQ` and the remaining entries. -/
def popMax (byFee : Bool) (q : List QEntry) : Option (QEntry × List QEntry) :=
  match q with
  | [] => none
  | x :: xs =>
    let m := xs.foldl (fun best y => if lessQ byFee best y then y else best) x
    some (m, q.erase m)

/-- A `CTxMemPoolEntry` together with the per-transaction results of the
external collaborators consulted during selection: `IsFinalTx` (`finalOk`),
the free-transaction predicate of miner.cpp:941 (`free`, lumping the priority
and fee deltas with `feeRate < minRelayTxFee`), `AllowFree(dPriority)`
(`allowFree`), `ContextualCheckInputs` (`ctxOk`) and the measured fee
`view.GetValueIn(tx) - tx.GetValueOut()` (`txFees`). -/
structure MemTx where
  hash : Nat
  tx : Transaction
  prio : Int
  fee : Int
  finalOk : Bool
  free : Bool
  allowFree : Bool
  ctxOk : Bool
  txFees : Int
deriving DecidableEq, Inhabited

/-- Inputs of `CreateNewBlock`: the chain UTXO view (as the set of unspent
outpoints of `pcoinsTip`), the size/sigop oracles, the configuration values
read by `GetArg`, and the coinbase parameters. -/
structure StdEnv where
  chainCoins : List OutPoint
  serSize : Transaction → Nat
  legacySigOps : Transaction → Nat
  p2shSigOps : Transaction → Nat
  maxBlockSize : Nat
  maxSigops : Nat
  argBlockMaxSize : Nat
  argPrioritySize : Nat
  argMinSize : Nat
  nHeight : Int
  subsidy : Int
  scriptPubKeyIn : Bytes

/-- `-blockmaxsize` clamped to `[1000, MAX_BLOCK_SIZE - 1000]` (miner.cpp:800). -/
def bMaxSize (env : StdEnv) : Nat :=
  max 1000 (min (env.maxBlockSize - 1000) env.argBlockMaxSize)

/-- `-blockprioritysize` clamped to at most the max block size (miner.cpp:805). -/
def bPrioSize (env : StdEnv) : Nat := min (bMaxSize env) env.argPrioritySize

/-- `-blockminsize` clamped to at most the max block size (miner.cpp:810). -/
def bMinSize (env : StdEnv) : Nat := min (bMaxSize env) env.argMinSize

def findTx (pool : List MemTx) (h : Nat) : Option MemTx :=
  pool.find? (fun m => m.hash == h)

/-- `view.HaveCoins(hash)` against the initial (chain-only) view. -/
def chainHasB (env : StdEnv) (h : Nat) : Bool :=
  env.chainCoins.any (fun p => p.hash == h)

/-- `mempool.mapTx.count(hash)`. -/
def poolHasB (pool : List MemTx) (h : Nat) : Bool :=
  pool.any (fun m => m.hash == h)

/-- The transaction ids referenced by a transaction's non-null inputs. -/
def txParents (t : Transaction) : List Nat :=
  t.vin.filterMap (fun i => i.prevout.map (·.hash))

/-- An input whose previous transaction is in neither the chain view nor the
pool ("mempool transaction missing input", miner.cpp:856-863).  A null prevout
has no coins and is never a pool key, so it always counts as missing here. -/
def inputMissingB (env : StdEnv) (pool : List MemTx) (i : TxIn) : Bool :=
  match i.prevout with
  | none => true
  | some p => !chainHasB env p.hash && !poolHasB pool p.hash

/-- A parent that must be supplied in-block: in the pool but not in the chain
view. -/
def depParB (env : StdEnv) (pool : List MemTx) (p : Nat) : Bool :=
  !chainHasB env p && poolHasB pool p

/-- The initial pass over the pool (miner.cpp:837-906): each final non-coinbase
transaction either goes straight into the priority queue, or becomes an orphan
carrying the set of in-pool parents it still depends on; transactions with a
missing input are dropped.  (`mapDependers` is recovered from the orphan
dependency sets when a transaction is accepted.) -/
def classify (env : StdEnv) (pool : List MemTx) :
    List MemTx → List QEntry × List (Nat × List Nat)
  | [] => ([], [])
  | m :: rest =>
    let qo := classify env pool rest
    if m.tx.IsCoinBase || !m.finalOk then qo
    else if m.tx.vin.any (inputMissingB env pool) then qo
    else if ((txParents m.tx).filter (fun p => !chainHasB env p)).dedup.isEmpty then
      ((m.prio, m.fee, m.hash) :: qo.1, qo.2)
    else
      (qo.1, (m.hash, ((txParents m.tx).filter (fun p => !chainHasB env p)).dedup) :: qo.2)

/-- The loop state of the collection phase (miner.cpp:908-997): the queue, the
orphan index, the template body built so far, the running accumulators, the
phase flag `fSortedByFee`, and the mutations `UpdateCoins` applied to the view
(outputs added, outpoints spent). -/
structure SState where
  queue : List QEntry
  orphans : List (Nat × List Nat)
  vtxTail : List Transaction
  accepted : List Nat
  feesTail : List Int
  sigOpsTail : List Int
  nBlockSize : Nat
  nBlockSigOps : Nat
  nBlockTx : Nat
  nFees : Int
  byFee : Bool
  added : List OutPoint
  spent : List OutPoint

/-- Availability of one outpoint in the evolving `CCoinsViewCache`. -/
def availOut (env : StdEnv) (st : SState) (p : OutPoint) : Bool :=
  (decide (p ∈ env.chainCoins) || decide (p ∈ st.added)) && !(decide (p ∈ st.spent))

/-- `view.HaveInputs(tx)`: vacuous for a coinbase, otherwise every input's
prevout must be an available coin. -/
def haveInputs (env : StdEnv) (st : SState) (t : Transaction) : Bool :=
  t.IsCoinBase || t.vin.all (fun i =>
    match i.prevout with
    | none => false
    | some p => availOut env st p)

/-- `UpdateCoins` plus the template append (miner.cpp:969-978). -/
def acceptTx (m : MemTx) (nTxSize nTxSigOps2 : Nat) (st : SState) : SState :=
  { st with
    spent := st.spent ++ m.tx.vin.filterMap (·.prevout)
    added := st.added ++ (List.range m.tx.vout.length).map (fun i => ⟨m.hash, i⟩)
    vtxTail := st.vtxTail ++ [m.tx]
    accepted := st.accepted ++ [m.hash]
    feesTail := st.feesTail ++ [m.txFees]
    sigOpsTail := st.sigOpsTail ++ [(nTxSigOps2 : Int)]
    nBlockSize := st.nBlockSize + nTxSize
    nBlockTx := st.nBlockTx + 1
    nBlockSigOps := st.nBlockSigOps + nTxSigOps2
    nFees := st.nFees + m.txFees }

/-- Releasing dependents of an accepted transaction (miner.cpp:985-996): every
orphan loses `h` from its dependency set, and the orphans whose set just became
empty are pushed into the priority queue with their stored scores. -/
def releaseDeps (pool : List MemTx) (h : Nat) (st : SState) : SState :=
  let newEntries := st.orphans.filterMap (fun od =>
    if h ∈ od.2 ∧ od.2.erase h = [] then
      (findTx pool od.1).map (fun m => ((m.prio, m.fee, od.1) : QEntry))
    else none)
  { st with
    orphans := st.orphans.map (fun od => (od.1, od.2.erase h))
    queue := st.queue ++ newEntries }

/-- The back half of the candidate body, after the phase switch:
`HaveInputs`, the P2SH sigop recheck, `ContextualCheckInputs`, then acceptance
and dependent release (miner.cpp:953-996). -/
def selStep2 (env : StdEnv) (pool : List MemTx) (m : MemTx) (st : SState) : SState :=
  if !haveInputs env st m.tx then st
  else if env.maxSigops ≤ st.nBlockSigOps + (env.legacySigOps m.tx + env.p2shSigOps m.tx) then st
  else if !m.ctxOk then st
  else releaseDeps pool m.hash
    (acceptTx m (env.serSize m.tx) (env.legacySigOps m.tx + env.p2shSigOps m.tx) st)

/-- The per-candidate body of the collection loop (miner.cpp:926-996), in the
source's order: size cap, legacy sigop cap, free-transaction skip, then the
priority-to-fee phase switch (which persists even when the candidate is then
skipped) feeding `selStep2`. -/
def selStep (env : StdEnv) (pool : List MemTx) (e : QEntry) (st : SState) : SState :=
  match findTx pool e.2.2 with
  | none => st
  | some m =>
    if bMaxSize env ≤ st.nBlockSize + env.serSize m.tx then st
    else if env.maxSigops ≤ st.nBlockSigOps + env.legacySigOps m.tx then st
    else if st.byFee && m.free &&
        decide (bMinSize env ≤ st.nBlockSize + env.serSize m.tx) then st
    else selStep2 env pool m
      (if !st.byFee &&
          (decide (bPrioSize env ≤ st.nBlockSize + env.serSize m.tx) || !m.allowFree)
       then { st with byFee := true } else st)

/-- `while (!vecPriority.empty())` (miner.cpp:917). -/
def selLoop (env : StdEnv) (pool : List MemTx) : Nat → SState → SState
  | 0, st => st
  | fuel + 1, st =>
    match popMax st.byFee st.queue with
    | none => st
    | some (e, rest) => selLoop env pool fuel (selStep env pool e { st with queue := rest })

/-- The state entering the collection loop (miner.cpp:908-915):
`fSortedByFee = (nBlockPrioritySize <= 0)` with the queue and orphans from the
initial pass. -/
def initSel (env : StdEnv) (pool : List MemTx) : SState :=
  let qo := classify env pool pool
  { queue := qo.1, orphans := qo.2, vtxTail := [], accepted := [], feesTail := [],
    sigOpsTail := [], nBlockSize := 1000, nBlockSigOps := 100, nBlockTx := 0,
    nFees := 0, byFee := bPrioSize env == 0, added := [], spent := [] }

/-- A block template: the transactions and the parallel fee and sigop lists. -/
structure BlockTemplate where
  vtx : List Transaction
  vTxFees : List Int
  vTxSigOps : List Int
deriving DecidableEq

/-- The miner-paid coinbase of a standard template (miner.cpp:1003-1013):
one null-prevout input with `scriptSig = push(height) ‖ OP_0`, one output
paying the subsidy plus the accumulated fees. -/
def stdCoinbase (env : StdEnv) (nFees : Int) : Transaction :=
  { vin := [⟨none, pushInt64 env.nHeight ++ [OP_0]⟩],
    vout := [⟨env.subsidy + nFees, env.scriptPubKeyIn⟩],
    shielded := [] }

/-- `CreateNewBlock` (miner.cpp:783-1039): run the selection, then install the
real coinbase at index 0 with `vTxFees[0] = -nFees` and
`vTxSigOps[0] = GetLegacySigOpCount(coinbase)`. -/
def createNewBlock (env : StdEnv) (pool : List MemTx) (fuel : Nat) : BlockTemplate :=
  let st := selLoop env pool fuel (initSel env pool)
  let cb := stdCoinbase env st.nFees
  { vtx := cb :: st.vtxTail
    vTxFees := (-st.nFees) :: st.feesTail
    vTxSigOps := ((env.legacySigOps cb : Int)) :: st.sigOpsTail }

/-- `IncrementExtraNonce` (miner.cpp:1090-1106): the standard-path coinbase
scriptSig rebuild `push(height) ‖ push(CScriptNum(extraNonce)) ++
COINBASE_FLAGS`, guarded by `assert(scriptSig.size() <= 100)` — the only
scriptSig size check in the file.  `none` models a failed assertion; the
extra-nonce counter is incremented before use. -/
def IncrementExtraNonce (nHeight : Int) (nExtraNonce : Nat) (coinbaseFlags : Bytes) :
    Option Bytes :=
  if ((pushInt64 nHeight ++ pushData (scriptNumEncode ((nExtraNonce + 1 : Nat) : Int))) ++
      coinbaseFlags).length ≤ 100 then
    some ((pushInt64 nHeight ++ pushData (scriptNumEncode ((nExtraNonce + 1 : Nat) : Int))) ++
      coinbaseFlags)
  else none

/-! ## The dependency invariant of the collection loop -/

/-- The invariant tying the queue, the orphan index and the block body
together: every queued candidate has every in-pool not-in-chain parent already
in the body (it entered the queue only once its dependency set emptied); every
orphan's outstanding such parents are covered by its dependency set; the body
itself is dependency-ordered; only non-coinbase pool transactions are in play;
and `nFees` matches the pushed fee entries. -/
structure SelInv (env : StdEnv) (pool : List MemTx) (st : SState) : Prop where
  qGood : ∀ e ∈ st.queue, ∀ m, findTx pool e.2.2 = some m →
    m.tx.IsCoinBase = false ∧
    ∀ p ∈ txParents m.tx, depParB env pool p = true → p ∈ st.accepted
  oGood : ∀ x ∈ st.orphans, ∀ m, findTx pool x.1 = some m →
    m.tx.IsCoinBase = false ∧
    ∀ p ∈ txParents m.tx, depParB env pool p = true → p ∈ x.2 ∨ p ∈ st.accepted
  ordered : ∀ i, i < st.accepted.length → ∀ m,
    findTx pool (st.accepted.getD i 0) = some m →
    ∀ p ∈ txParents m.tx, depParB env pool p = true → p ∈ st.accepted.take i
  tailCB : ∀ t ∈ st.vtxTail, t.IsCoinBase = false
  feesAcc : st.nFees = st.feesTail.sum
  lenEq : st.vtxTail.length = st.accepted.length
  link : ∀ i, i < st.accepted.length → ∃ m,
    findTx pool (st.accepted.getD i 0) = some m ∧ st.vtxTail.getD i default = m.tx


/-! ## Concrete fixtures (snapshot files, configurations, a small pool) -/

def cfgT : ForkCfg :=
  ⟨200, 100, 300, 9999, 10, List.replicate 32 7, List.replicate 64 0, 2000000, 20000⟩

def cfgLast : ForkCfg := { cfgT with nHeight := 400 }

def envT : ForkEnv := ⟨fun _ => 100, fun _ => 1, fun _ => default⟩

/-- One transparent record: amount 5, script `[0xAA]`, separator. -/
def fileT1 : Bytes := leBytes 8 5 ++ leBytes 8 1 ++ [170] ++ [10]

/-- One transparent record whose amount is 2^63 (a legal 8-byte field). -/
def fileBig : Bytes := leBytes 8 (2 ^ 63) ++ leBytes 8 1 ++ [170] ++ [10]

/-- One transparent record with `script_len = 0`: amount 3, no script bytes. -/
def fileZeroLen : Bytes := leBytes 8 3 ++ leBytes 8 0 ++ [10]

/-- A transparent record truncated before the separator byte: amount 5,
script `[0xAA]`, then end-of-file. -/
def fileNoSep : Bytes := leBytes 8 5 ++ leBytes 8 1 ++ [170]

/-- One shielded record: the 32-byte ASCII size field parses (base 2) as 1,
followed by the single transaction byte. -/
def recZ1 : Bytes := [49] ++ List.replicate 31 65 ++ [0]

def cfgZcap : ForkCfg := { cfgT with nHeight := 9999, forkCBPerBlock := 1 }

/-- Shielded decode oracle returning a transaction with no inputs. -/
def envZempty : ForkEnv := ⟨fun _ => 100, fun _ => 1, fun _ => ⟨[], [⟨77, [9]⟩], [42]⟩⟩

/-- Shielded decode oracle returning a transaction whose first input carries a
101-byte scriptSig. -/
def envZbig : ForkEnv :=
  ⟨fun _ => 100, fun _ => 1, fun _ => ⟨[⟨some ⟨1, 1⟩, List.replicate 101 7⟩], [], []⟩⟩

/-- `txA` spends a chain coin; `txB` (hash 2) spends `txA` (hash 1). -/
def txA : Transaction := ⟨[⟨some ⟨100, 0⟩, []⟩], [⟨50, []⟩], []⟩

def txB : Transaction := ⟨[⟨some ⟨1, 0⟩, []⟩], [⟨40, []⟩], []⟩

/-- A two-entry pool in which the higher-priority `txB` depends on `txA`. -/
def poolW : List MemTx :=
  [⟨2, txB, 99, 9, true, false, true, true, 5⟩,
   ⟨1, txA, 10, 3, true, false, true, true, 7⟩]

def envS : StdEnv :=
  ⟨[⟨100, 0⟩], fun _ => 10, fun _ => 0, fun _ => 0, 2000000, 20000,
   500000, 200000, 0, 201, 1000, [9, 9]⟩

/-! ## Basic lemmas about the byte and script encoders -/

theorem natLEAux_length_le : ∀ (k fuel n : Nat), n < 256 ^ k →
    (natLEAux fuel n).length ≤ k := by
  intro k
  induction k with
  | zero =>
    intro fuel n hn
    have h0 : n = 0 := Nat.lt_one_iff.mp hn
    subst h0
    cases fuel <;> simp [natLEAux]
  | succ k ih =>
    intro fuel n hn
    cases n with
    | zero => cases fuel <;> simp [natLEAux]
    | succ m =>
      cases fuel with
      | zero => simp [natLEAux]
      | succ f =>
        rw [natLEAux]
        simp only [List.length_cons]
        have hlt : (m + 1) / 256 < 256 ^ k := by
          rw [Nat.div_lt_iff_lt_mul (by norm_num)]
          calc m + 1 < 256 ^ (k + 1) := hn
            _ = 256 ^ k * 256 := by ring
        exact Nat.succ_le_succ (ih f _ hlt)

theorem natLE_length_le (k n : Nat) (h : n < 256 ^ k) : (natLE n).length ≤ k :=
  natLEAux_length_le k n n h

theorem scriptNumEncode_length_le (n : Int) :
    (scriptNumEncode n).length ≤ (natLE n.natAbs).length + 1 := by
  unfold scriptNumEncode
  split
  · simp
  · cases hd : (natLE n.natAbs).getLast? with
    | none => simp
    | some last =>
      have hne : natLE n.natAbs ≠ [] := by
        intro h
        rw [h] at hd
        simp at hd
      dsimp only
      split
      · simp
      · split
        · have h1 : 1 ≤ (natLE n.natAbs).length := List.length_pos.mpr hne
          simp only [List.length_append, List.length_dropLast, List.length_singleton]
          omega
        · omega

theorem pushData_length_small (d : Bytes) (h : d.length < 76) :
    (pushData d).length = d.length + 1 := by
  simp [pushData, h]

theorem pushInt64_length_le (n : Int) (h0 : 0 ≤ n) (h1 : n < 2 ^ 31) :
    (pushInt64 n).length ≤ 6 := by
  unfold pushInt64
  split
  · simp
  · split
    · simp
    · split
      · simp
      · have hna : n.natAbs < 256 ^ 4 := by
          have h2 : (256 : Int) ^ 4 = 2 ^ 32 := by norm_num
          omega
        have h2 := natLE_length_le 4 n.natAbs hna
        have h3 := scriptNumEncode_length_le n
        have h4 : (scriptNumEncode n).length < 76 := by omega
        rw [pushData_length_small _ h4]
        omega

/-- The transparent-path fork coinbase scriptSig is structurally at most
50 bytes, in particular within the 100-byte consensus limit, for any 32-bit
height and any index below 2^63. -/
theorem coinbaseScriptSig_length_le (h : Int) (idx : Nat) (pid : Bytes)
    (hh0 : 0 ≤ h) (hh : h < 2 ^ 31) (hidx : idx < 2 ^ 63) (hpid : pid.length = 32) :
    (coinbaseScriptSig h idx pid).length ≤ 100 := by
  unfold coinbaseScriptSig
  have e1 := pushInt64_length_le h hh0 hh
  have hna : ((idx : Int)).natAbs < 256 ^ 8 := by
    have h2 : (256 : Nat) ^ 8 = 2 ^ 64 := by norm_num
    simp only [Int.natAbs_ofNat]
    omega
  have e2 := natLE_length_le 8 _ hna
  have e3 := scriptNumEncode_length_le (idx : Int)
  have e4 : (scriptNumEncode (idx : Int)).length < 76 := by omega
  have e5 := pushData_length_small _ e4
  have e6 : (if idx = 0 then pushData pid else []).length ≤ 33 := by
    split
    · rw [pushData_length_small _ (by rw [hpid]; norm_num), hpid]
    · simp
  simp only [List.length_append, List.length_singleton]
  omega

/-! ## List helpers -/

theorem getD_concat_self {α : Type} (l : List α) (a d : α) :
    (l ++ [a]).getD l.length d = a := by
  rw [List.getD_append_right _ _ _ _ (le_refl _)]
  simp

theorem erase_mem_nil {l : List Nat} {a : Nat} (hmem : a ∈ l) (h : l.erase a = []) :
    l = [a] := by
  cases l with
  | nil => cases hmem
  | cons b t =>
    rw [List.erase_cons] at h
    split at h
    · next hba =>
      subst h
      have : b = a := by simpa using hba
      rw [this]
    · cases h

/-! ## Shape of one transparent-format iteration -/

theorem forkStepT_shape (cfg : ForkCfg) (env : ForkEnv) (file : Bytes) (st : TState) :
    ((forkStepT cfg env file st).vtx = st.vtx ∧
     (forkStepT cfg env file st).vTxFees = st.vTxFees ∧
     (forkStepT cfg env file st).nBlockTx = st.nBlockTx) ∨
    (∃ v s,
      (forkStepT cfg env file st).vtx =
        st.vtx ++ [⟨[⟨none, coinbaseScriptSig cfg.nHeight st.nBlockTx cfg.hashPid⟩],
                    [⟨v, s⟩], []⟩] ∧
      (forkStepT cfg env file st).vTxFees = st.vTxFees ++ [0] ∧
      (forkStepT cfg env file st).nBlockTx = st.nBlockTx + 1) := by
  unfold forkStepT
  cases h1 : readB file st.pos 8 with
  | none => left; exact ⟨rfl, rfl, rfl⟩
  | some coin =>
    dsimp only
    cases h2 : readB file (st.pos + 8) 8 with
    | none => left; exact ⟨rfl, rfl, rfl⟩
    | some pk =>
      dsimp only
      split
      · left; exact ⟨rfl, rfl, rfl⟩
      · cases h3 : readB file (st.pos + 16) (leVal pk % 2 ^ 32) with
        | none => left; exact ⟨rfl, rfl, rfl⟩
        | some script =>
          dsimp only
          unfold forkAfterReads
          split
          · left; exact ⟨rfl, rfl, rfl⟩
          · split
            · left; exact ⟨rfl, rfl, rfl⟩
            · cases h4 : readB file
                (forkAppend cfg env st (leVal coin) (leVal pk % 2 ^ 32) script).pos 1 with
              | none => right; exact ⟨_, _, rfl, rfl, rfl⟩
              | some t =>
                dsimp only
                split
                · right; exact ⟨_, _, rfl, rfl, rfl⟩
                · right; exact ⟨_, _, rfl, rfl, rfl⟩

/-! ## Shape of one shielded-format iteration -/

theorem forkStepZ_shape (cfg : ForkCfg) (env : ForkEnv) (file : Bytes) (st : TState) :
    ((forkStepZ cfg env file st).vtx = st.vtx ∧
     (forkStepZ cfg env file st).vTxFees = st.vTxFees ∧
     (forkStepZ cfg env file st).nBlockTx = st.nBlockTx) ∨
    (∃ raw,
      (forkStepZ cfg env file st).vtx = st.vtx ++ [shapeShielded (env.decode raw)] ∧
      (forkStepZ cfg env file st).vTxFees = st.vTxFees ++ [0] ∧
      (forkStepZ cfg env file st).nBlockTx = st.nBlockTx + 1) := by
  unfold forkStepZ
  cases h1 : readB file st.pos 32 with
  | none => left; exact ⟨rfl, rfl, rfl⟩
  | some ts =>
    dsimp only
    split
    · left; exact ⟨rfl, rfl, rfl⟩
    · cases h2 : readB file (st.pos + 32) (parseBin ts) with
      | none => left; exact ⟨rfl, rfl, rfl⟩
      | some raw =>
        dsimp only
        split
        · left; exact ⟨rfl, rfl, rfl⟩
        · split
          · left; exact ⟨rfl, rfl, rfl⟩
          · right; exact ⟨_, rfl, rfl, rfl⟩

/-! ## Properties of the shielded coinbase-shaping -/

theorem shapeShielded_vin (t : Transaction) :
    (shapeShielded t).vin = [⟨none, ((t.vin.map (·.scriptSig)).headD [])⟩] := by
  cases ht : t.vin with
  | nil => simp [shapeShielded, ht]
  | cons i rest => simp [shapeShielded, ht]

theorem shapeShielded_vout (t : Transaction) :
    (shapeShielded t).vout = [⟨0, ((t.vout.map (·.scriptPubKey)).headD [])⟩] := by
  cases ht : t.vout with
  | nil => simp [shapeShielded, ht]
  | cons o rest => simp [shapeShielded, ht]

theorem shapeShielded_shielded (t : Transaction) :
    (shapeShielded t).shielded = t.shielded := rfl

theorem shapeShielded_isCB (t : Transaction) :
    (shapeShielded t).IsCoinBase = true := by
  rw [Transaction.IsCoinBase, shapeShielded_vin]
  rfl

/-! ## Loop preservation combinators -/

theorem loopT_pres (cfg : ForkCfg) (env : ForkEnv) (file : Bytes) (P : TState → Prop)
    (hstop : ∀ st v, P st → P { st with stop := v })
    (hstep : ∀ st, P st → st.nBlockTx < cfg.forkCBPerBlock →
      P (forkStepT cfg env file st)) :
    ∀ fuel st, P st → P (loopT cfg env file fuel st) := by
  intro fuel
  induction fuel with
  | zero => exact fun st h => h
  | succ n ih =>
    intro st h
    rw [loopT]
    split
    · exact h
    · split
      · exact hstop st _ h
      · next hcap => exact ih _ (hstep st h (by omega))

theorem loopZ_pres (cfg : ForkCfg) (env : ForkEnv) (file : Bytes) (P : TState → Prop)
    (hstep : ∀ st, P st → P (forkStepZ cfg env file st)) :
    ∀ fuel st, P st → P (loopZ cfg env file fuel st) := by
  intro fuel
  induction fuel with
  | zero => exact fun st h => h
  | succ n ih =>
    intro st h
    rw [loopZ]
    split
    · exact h
    · exact ih _ (hstep st h)

/-! ## Derived invariants of the fork body-fill loops -/

theorem loopT_allCB (cfg : ForkCfg) (env : ForkEnv) (file : Bytes) (fuel : Nat)
    (st : TState) (h : ∀ t ∈ st.vtx, t.IsCoinBase = true) :
    ∀ t ∈ (loopT cfg env file fuel st).vtx, t.IsCoinBase = true := by
  refine loopT_pres cfg env file (fun s => ∀ t ∈ s.vtx, t.IsCoinBase = true)
    (fun s v hP => hP) ?_ fuel st h
  intro s hP _
  rcases forkStepT_shape cfg env file s with ⟨hv, _, _⟩ | ⟨v, sc, hv, _, _⟩
  · rw [hv]; exact hP
  · rw [hv]
    intro t ht
    rcases List.mem_append.mp ht with h1 | h2
    · exact hP t h1
    · have h3 := List.mem_singleton.mp h2
      subst h3
      rfl

theorem loopZ_allCB (cfg : ForkCfg) (env : ForkEnv) (file : Bytes) (fuel : Nat)
    (st : TState) (h : ∀ t ∈ st.vtx, t.IsCoinBase = true) :
    ∀ t ∈ (loopZ cfg env file fuel st).vtx, t.IsCoinBase = true := by
  refine loopZ_pres cfg env file (fun s => ∀ t ∈ s.vtx, t.IsCoinBase = true) ?_ fuel st h
  intro s hP
  rcases forkStepZ_shape cfg env file s with ⟨hv, _, _⟩ | ⟨raw, hv, _, _⟩
  · rw [hv]; exact hP
  · rw [hv]
    intro t ht
    rcases List.mem_append.mp ht with h1 | h2
    · exact hP t h1
    · have h3 := List.mem_singleton.mp h2
      subst h3
      exact shapeShielded_isCB _

theorem loopT_count (cfg : ForkCfg) (env : ForkEnv) (file : Bytes) (fuel : Nat)
    (st : TState) (h1 : st.nBlockTx ≤ cfg.forkCBPerBlock)
    (h2 : st.vtx.length = st.nBlockTx + 1) :
    (loopT cfg env file fuel st).nBlockTx ≤ cfg.forkCBPerBlock ∧
    (loopT cfg env file fuel st).vtx.length = (loopT cfg env file fuel st).nBlockTx + 1 := by
  refine loopT_pres cfg env file
    (fun s => s.nBlockTx ≤ cfg.forkCBPerBlock ∧ s.vtx.length = s.nBlockTx + 1)
    (fun s v hP => hP) ?_ fuel st ⟨h1, h2⟩
  intro s hP hlt
  rcases forkStepT_shape cfg env file s with ⟨hv, _, hn⟩ | ⟨v, sc, hv, _, hn⟩
  · rw [hv, hn]; exact hP
  · rw [hv, hn]
    constructor
    · omega
    · simp only [List.length_append, List.length_singleton]
      omega

theorem loopT_scriptSig (cfg : ForkCfg) (env : ForkEnv) (file : Bytes) (fuel : Nat)
    (st : TState) (h2 : st.vtx.length = st.nBlockTx + 1)
    (h : ∀ k, k < st.vtx.length →
      (st.vtx.getD k default).vin.map (·.scriptSig) =
        [coinbaseScriptSig cfg.nHeight (k - 1) cfg.hashPid]) :
    ∀ k, k < (loopT cfg env file fuel st).vtx.length →
      ((loopT cfg env file fuel st).vtx.getD k default).vin.map (·.scriptSig) =
        [coinbaseScriptSig cfg.nHeight (k - 1) cfg.hashPid] := by
  refine (loopT_pres cfg env file
    (fun s => s.vtx.length = s.nBlockTx + 1 ∧ ∀ k, k < s.vtx.length →
      (s.vtx.getD k default).vin.map (·.scriptSig) =
        [coinbaseScriptSig cfg.nHeight (k - 1) cfg.hashPid])
    (fun s v hP => hP) ?_ fuel st ⟨h2, h⟩).2
  intro s hP _
  rcases forkStepT_shape cfg env file s with ⟨hv, _, hn⟩ | ⟨v, sc, hv, _, hn⟩
  · rw [hv, hn]; exact hP
  · rw [hv, hn]
    constructor
    · simp only [List.length_append, List.length_singleton]
      omega
    · intro k hk
      simp only [List.length_append, List.length_singleton] at hk
      by_cases hlt : k < s.vtx.length
      · rw [List.getD_append _ _ _ _ hlt]
        exact hP.2 k hlt
      · have hk2 : k = s.vtx.length := by omega
        subst hk2
        rw [getD_concat_self]
        have : s.vtx.length - 1 = s.nBlockTx := by omega
        simp only [List.map_cons, List.map_nil, this]

theorem loopZ_shapeInv (cfg : ForkCfg) (env : ForkEnv) (file : Bytes) (fuel : Nat)
    (st : TState)
    (h : ∀ k, 1 ≤ k → k < st.vtx.length →
      ∃ raw, st.vtx.getD k default = shapeShielded (env.decode raw)) :
    ∀ k, 1 ≤ k → k < (loopZ cfg env file fuel st).vtx.length →
      ∃ raw, (loopZ cfg env file fuel st).vtx.getD k default =
        shapeShielded (env.decode raw) := by
  refine loopZ_pres cfg env file
    (fun s => ∀ k, 1 ≤ k → k < s.vtx.length →
      ∃ raw, s.vtx.getD k default = shapeShielded (env.decode raw))
    ?_ fuel st h
  intro s hP
  rcases forkStepZ_shape cfg env file s with ⟨hv, _, _⟩ | ⟨raw, hv, _, _⟩
  · rw [hv]; exact hP
  · rw [hv]
    intro k hk1 hk2
    simp only [List.length_append, List.length_singleton] at hk2
    by_cases hlt : k < s.vtx.length
    · rw [List.getD_append _ _ _ _ hlt]
      exact hP k hk1 hlt
    · have hk3 : k = s.vtx.length := by omega
      subst hk3
      rw [getD_concat_self]
      exact ⟨raw, rfl⟩

/-! ## Lemmas about the priority queue and the pool index -/

theorem foldlChoice_mem (f : QEntry → QEntry → Bool) :
    ∀ (xs : List QEntry) (x : QEntry),
      xs.foldl (fun best y => if f best y then y else best) x ∈ x :: xs := by
  intro xs
  induction xs with
  | nil => intro x; simp
  | cons y ys ih =>
    intro x
    simp only [List.foldl_cons]
    rcases List.mem_cons.mp (ih (if f x y then y else x)) with h1 | h2
    · rw [h1]
      split
      · exact List.mem_cons_of_mem _ (List.mem_cons_self _ _)
      · exact List.mem_cons_self _ _
    · exact List.mem_cons_of_mem _ (List.mem_cons_of_mem _ h2)

theorem popMax_spec (b : Bool) (q : List QEntry) (e : QEntry) (rest : List QEntry)
    (h : popMax b q = some (e, rest)) : e ∈ q ∧ ∀ y ∈ rest, y ∈ q := by
  cases q with
  | nil => cases h
  | cons x xs =>
    rw [popMax] at h
    have h1 := (Prod.mk.injEq _ _ _ _).mp (Option.some.inj h)
    constructor
    · rw [← h1.1]
      exact foldlChoice_mem _ xs x
    · intro y hy
      rw [← h1.2] at hy
      exact List.mem_of_mem_erase hy

theorem findTx_spec (pool : List MemTx) (h : Nat) (m : MemTx)
    (hf : findTx pool h = some m) : m ∈ pool ∧ m.hash = h := by
  constructor
  · exact List.mem_of_find?_eq_some hf
  · have := List.find?_some hf
    simpa using this

theorem findTx_of_mem_nodup (pool : List MemTx)
    (hn : (pool.map (·.hash)).Nodup) (m : MemTx) (hm : m ∈ pool) :
    findTx pool m.hash = some m := by
  induction pool with
  | nil => cases hm
  | cons a rest ih =>
    rcases List.mem_cons.mp hm with h1 | h2
    · subst h1
      simp [findTx, List.find?]
    · have hn2 : (rest.map (·.hash)).Nodup := (List.nodup_cons.mp hn).2
      have hne : ¬ a.hash = m.hash := by
        intro he
        have : a.hash ∈ rest.map (·.hash) := by
          rw [he]
          exact List.mem_map_of_mem _ h2
        exact (List.nodup_cons.mp hn).1 this
      rw [findTx, List.find?]
      rw [show (a.hash == m.hash) = false by simpa using hne]
      exact ih hn2 h2

/-! ## Lemmas about the initial classification pass -/

theorem classify_queue_mem (env : StdEnv) (pool : List MemTx) :
    ∀ (l : List MemTx) (e : QEntry), e ∈ (classify env pool l).1 →
      ∃ m ∈ l, e = (m.prio, m.fee, m.hash) ∧ m.tx.IsCoinBase = false ∧
        ∀ p ∈ txParents m.tx, chainHasB env p = true := by
  intro l
  induction l with
  | nil => intro e he; simp [classify] at he
  | cons m rest ih =>
    intro e he
    rw [classify] at he
    split at he
    · rcases ih e he with ⟨m', hm', rest'⟩
      exact ⟨m', List.mem_cons_of_mem _ hm', rest'⟩
    · split at he
      · rcases ih e he with ⟨m', hm', rest'⟩
        exact ⟨m', List.mem_cons_of_mem _ hm', rest'⟩
      · next hskip _ =>
        split at he
        · next hdeps =>
          rcases List.mem_cons.mp he with h1 | h2
          · refine ⟨m, List.mem_cons_self _ _, h1, ?_, ?_⟩
            · have hb : (m.tx.IsCoinBase || !m.finalOk) = false := by simpa using hskip
              simp only [Bool.or_eq_false_iff] at hb
              exact hb.1
            · intro p hp
              have hfil : ((txParents m.tx).filter (fun p => !chainHasB env p)) = [] := by
                rw [← List.dedup_eq_nil]
                exact List.isEmpty_iff.mp hdeps
              have := List.filter_eq_nil_iff.mp hfil p hp
              simpa using this
          · rcases ih e h2 with ⟨m', hm', rest'⟩
            exact ⟨m', List.mem_cons_of_mem _ hm', rest'⟩
        · rcases ih e he with ⟨m', hm', rest'⟩
          exact ⟨m', List.mem_cons_of_mem _ hm', rest'⟩

theorem classify_orph_mem (env : StdEnv) (pool : List MemTx) :
    ∀ (l : List MemTx) (x : Nat × List Nat), x ∈ (classify env pool l).2 →
      ∃ m ∈ l, x.1 = m.hash ∧ m.tx.IsCoinBase = false ∧
        ∀ p ∈ txParents m.tx, chainHasB env p = false → p ∈ x.2 := by
  intro l
  induction l with
  | nil => intro x hx; simp [classify] at hx
  | cons m rest ih =>
    intro x hx
    rw [classify] at hx
    split at hx
    · rcases ih x hx with ⟨m', hm', rest'⟩
      exact ⟨m', List.mem_cons_of_mem _ hm', rest'⟩
    · split at hx
      · rcases ih x hx with ⟨m', hm', rest'⟩
        exact ⟨m', List.mem_cons_of_mem _ hm', rest'⟩
      · next hskip _ =>
        split at hx
        · rcases ih x hx with ⟨m', hm', rest'⟩
          exact ⟨m', List.mem_cons_of_mem _ hm', rest'⟩
        · rcases List.mem_cons.mp hx with h1 | h2
          · subst h1
            refine ⟨m, List.mem_cons_self _ _, rfl, ?_, ?_⟩
            · have hb : (m.tx.IsCoinBase || !m.finalOk) = false := by simpa using hskip
              simp only [Bool.or_eq_false_iff] at hb
              exact hb.1
            · intro p hp hpc
              simp only [List.mem_dedup, List.mem_filter]
              exact ⟨hp, by simpa using hpc⟩
          · rcases ih x h2 with ⟨m', hm', rest'⟩
            exact ⟨m', List.mem_cons_of_mem _ hm', rest'⟩

theorem SelInv_byFee (env : StdEnv) (pool : List MemTx) (st : SState) (b : Bool)
    (h : SelInv env pool st) : SelInv env pool { st with byFee := b } :=
  ⟨h.qGood, h.oGood, h.ordered, h.tailCB, h.feesAcc, h.lenEq, h.link⟩

theorem SelInv_queue_sub (env : StdEnv) (pool : List MemTx) (st : SState)
    (q' : List QEntry) (h : SelInv env pool st) (hsub : ∀ y ∈ q', y ∈ st.queue) :
    SelInv env pool { st with queue := q' } := by
  refine ⟨?_, h.oGood, h.ordered, h.tailCB, h.feesAcc, h.lenEq, h.link⟩
  intro e he m hm
  exact h.qGood e (hsub e he) m hm

theorem releaseAccept_fields (pool : List MemTx) (m : MemTx)
    (a b : Nat) (st : SState) :
    (releaseDeps pool m.hash (acceptTx m a b st)).queue =
      st.queue ++ st.orphans.filterMap (fun od =>
        if m.hash ∈ od.2 ∧ od.2.erase m.hash = [] then
          (findTx pool od.1).map (fun mm => ((mm.prio, mm.fee, od.1) : QEntry))
        else none) ∧
    (releaseDeps pool m.hash (acceptTx m a b st)).orphans =
      st.orphans.map (fun od => (od.1, od.2.erase m.hash)) ∧
    (releaseDeps pool m.hash (acceptTx m a b st)).accepted = st.accepted ++ [m.hash] ∧
    (releaseDeps pool m.hash (acceptTx m a b st)).vtxTail = st.vtxTail ++ [m.tx] ∧
    (releaseDeps pool m.hash (acceptTx m a b st)).feesTail = st.feesTail ++ [m.txFees] ∧
    (releaseDeps pool m.hash (acceptTx m a b st)).nFees = st.nFees + m.txFees :=
  ⟨rfl, rfl, rfl, rfl, rfl, rfl⟩

theorem accept_release_inv (env : StdEnv) (pool : List MemTx) (m : MemTx)
    (a b : Nat) (st : SState) (hinv : SelInv env pool st)
    (hm : findTx pool m.hash = some m)
    (hcb : m.tx.IsCoinBase = false)
    (hpar : ∀ p ∈ txParents m.tx, depParB env pool p = true → p ∈ st.accepted) :
    SelInv env pool (releaseDeps pool m.hash (acceptTx m a b st)) := by
  obtain ⟨e1, e2, e3, e4, e5, e6⟩ := releaseAccept_fields pool m a b st
  refine ⟨?_, ?_, ?_, ?_, ?_, ?_, ?_⟩
  · -- qGood
    intro e he m' hm'
    rw [e1] at he
    rw [e3]
    rcases List.mem_append.mp he with he1 | he2
    · have old := hinv.qGood e he1 m' hm'
      exact ⟨old.1, fun p hp hd => List.mem_append_left _ (old.2 p hp hd)⟩
    · rcases List.mem_filterMap.mp he2 with ⟨od, hod, hcond⟩
      split at hcond
      · next hc =>
        rcases Option.map_eq_some'.mp hcond with ⟨mm, hmm, hemm⟩
        subst hemm
        -- hm' : findTx pool od.1 = some m'
        have old := hinv.oGood od hod m' hm'
        refine ⟨old.1, fun p hp hd => ?_⟩
        rcases old.2 p hp hd with hin | hacc
        · have hone := erase_mem_nil hc.1 hc.2
          rw [hone] at hin
          have : p = m.hash := List.mem_singleton.mp hin
          subst this
          exact List.mem_append_right _ (List.mem_singleton_self _)
        · exact List.mem_append_left _ hacc
      · cases hcond
  · -- oGood
    intro x hx m' hm'
    rw [e2] at hx
    rw [e3]
    rcases List.mem_map.mp hx with ⟨od, hod, hx2⟩
    subst hx2
    have old := hinv.oGood od hod m' hm'
    refine ⟨old.1, fun p hp hd => ?_⟩
    rcases old.2 p hp hd with hin | hacc
    · by_cases hpm : p = m.hash
      · subst hpm
        exact Or.inr (List.mem_append_right _ (List.mem_singleton_self _))
      · exact Or.inl ((List.mem_erase_of_ne hpm).mpr hin)
    · exact Or.inr (List.mem_append_left _ hacc)
  · -- ordered
    intro i hi m' hm'
    rw [e3] at hi hm' ⊢
    simp only [List.length_append, List.length_singleton] at hi
    by_cases hlt : i < st.accepted.length
    · rw [List.getD_append _ _ _ _ hlt] at hm'
      have old := hinv.ordered i hlt m' hm'
      intro p hp hd
      rw [List.take_append_of_le_length (Nat.le_of_lt hlt)]
      exact old p hp hd
    · have hieq : i = st.accepted.length := by omega
      subst hieq
      rw [getD_concat_self] at hm'
      rw [hm] at hm'
      have hmeq := Option.some.inj hm'
      subst hmeq
      intro p hp hd
      rw [List.take_left]
      exact hpar p hp hd
  · -- tailCB
    rw [e4]
    intro t ht
    rcases List.mem_append.mp ht with h1 | h2
    · exact hinv.tailCB t h1
    · have := List.mem_singleton.mp h2
      subst this
      exact hcb
  · -- feesAcc
    rw [e6, e5, List.sum_append]
    simp [hinv.feesAcc]
  · -- lenEq
    rw [e3, e4]
    simp only [List.length_append, List.length_singleton, hinv.lenEq]
  · -- link
    intro i hi
    rw [e3] at hi ⊢
    rw [e4]
    simp only [List.length_append, List.length_singleton] at hi
    by_cases hlt : i < st.accepted.length
    · rw [List.getD_append _ _ _ _ hlt,
        List.getD_append _ _ _ _ (show i < st.vtxTail.length by rw [hinv.lenEq]; exact hlt)]
      exact hinv.link i hlt
    · have hieq : i = st.accepted.length := by omega
      subst hieq
      rw [getD_concat_self]
      refine ⟨m, hm, ?_⟩
      rw [show st.accepted.length = st.vtxTail.length from hinv.lenEq.symm, getD_concat_self]

theorem selStep2_inv (env : StdEnv) (pool : List MemTx) (m : MemTx) (st : SState)
    (hinv : SelInv env pool st)
    (hme : findTx pool m.hash = some m)
    (hcb : m.tx.IsCoinBase = false)
    (hpar : ∀ p ∈ txParents m.tx, depParB env pool p = true → p ∈ st.accepted) :
    SelInv env pool (selStep2 env pool m st) := by
  unfold selStep2
  split
  · exact hinv
  · split
    · exact hinv
    · split
      · exact hinv
      · exact accept_release_inv env pool m _ _ st hinv hme hcb hpar

theorem selStep_inv (env : StdEnv) (pool : List MemTx) (e : QEntry) (st : SState)
    (hinv : SelInv env pool st)
    (he : ∀ m, findTx pool e.2.2 = some m →
      m.tx.IsCoinBase = false ∧
      ∀ p ∈ txParents m.tx, depParB env pool p = true → p ∈ st.accepted) :
    SelInv env pool (selStep env pool e st) := by
  unfold selStep
  cases hf : findTx pool e.2.2 with
  | none => exact hinv
  | some m =>
    dsimp only
    have hm2 := he m hf
    have hmh : m.hash = e.2.2 := (findTx_spec pool _ m hf).2
    have hself : findTx pool m.hash = some m := by rw [hmh]; exact hf
    split
    · exact hinv
    · split
      · exact hinv
      · split
        · exact hinv
        · split
          · exact selStep2_inv env pool m _ (SelInv_byFee env pool st true hinv)
              hself hm2.1 hm2.2
          · exact selStep2_inv env pool m st hinv hself hm2.1 hm2.2

theorem selLoop_inv (env : StdEnv) (pool : List MemTx) :
    ∀ (fuel : Nat) (st : SState), SelInv env pool st →
      SelInv env pool (selLoop env pool fuel st) := by
  intro fuel
  induction fuel with
  | zero => exact fun st h => h
  | succ n ih =>
    intro st h
    rw [selLoop]
    cases hp : popMax st.byFee st.queue with
    | none => exact h
    | some pr =>
      obtain ⟨e, rest⟩ := pr
      have hspec := popMax_spec st.byFee st.queue e rest hp
      exact ih _ (selStep_inv env pool e _
        (SelInv_queue_sub env pool st rest h hspec.2)
        (fun m hm => h.qGood e hspec.1 m hm))

theorem initSel_inv (env : StdEnv) (pool : List MemTx)
    (hn : (pool.map (·.hash)).Nodup) : SelInv env pool (initSel env pool) := by
  refine ⟨?_, ?_, ?_, ?_, ?_, ?_, ?_⟩
  · intro e he m hm
    rcases classify_queue_mem env pool pool e he with ⟨m0, hm0, he0, hcb0, hch0⟩
    have hf0 : findTx pool m0.hash = some m0 := findTx_of_mem_nodup pool hn m0 hm0
    subst he0
    rw [hf0] at hm
    have hmm := Option.some.inj hm
    subst hmm
    constructor
    · exact hcb0
    · intro p hp hd
      exfalso
      have h1 := hch0 p hp
      simp [depParB, h1] at hd
  · intro x hx m hm
    rcases classify_orph_mem env pool pool x hx with ⟨m0, hm0, hx1, hcb0, hdep0⟩
    have hf0 : findTx pool m0.hash = some m0 := findTx_of_mem_nodup pool hn m0 hm0
    rw [hx1, hf0] at hm
    have hmm := Option.some.inj hm
    subst hmm
    constructor
    · exact hcb0
    · intro p hp hd
      have hch : chainHasB env p = false := by
        revert hd
        cases hcv : chainHasB env p <;> simp [depParB, hcv]
      exact Or.inl (hdep0 p hp hch)
  · intro i hi
    simp [initSel] at hi
  · intro t ht
    simp [initSel] at ht
  · rfl
  · rfl
  · intro i hi
    simp [initSel] at hi

/-! ## Unfolding `CreateNewForkBlock` by framing format -/

theorem createNewForkBlock_eq_T (cfg : ForkCfg) (env : ForkEnv) (f : Bytes)
    (hz : ¬ cfg.nHeight = cfg.zStart) :
    createNewForkBlock cfg env (some f) =
      some (loopT cfg env f (f.length + 1) (forkInit cfg)) := by
  simp [createNewForkBlock, hz]

theorem createNewForkBlock_eq_Z (cfg : ForkCfg) (env : ForkEnv) (f : Bytes)
    (hz : cfg.nHeight = cfg.zStart) :
    createNewForkBlock cfg env (some f) =
      some (loopZ cfg env f (f.length + 1) (forkInit cfg)) := by
  simp [createNewForkBlock, hz]

theorem forkInit_allCB (cfg : ForkCfg) : ∀ t ∈ (forkInit cfg).vtx, t.IsCoinBase = true := by
  intro t ht
  have h := List.mem_singleton.mp ht
  subst h
  rfl

/-! ## Claim theorems -/

/-- C9: `UpdateTime` sets the header time to
`max(prev.median_time_past + 1, adjusted_now())`; on networks with
`PowAllowMinDifficultyBlocks` it recomputes `nBits` from the updated header
via `GetNextWorkRequired`, and otherwise leaves `nBits` unchanged. -/
theorem updateTime_spec (pblock : BlockHeader) (allowMin : Bool) (mtp now : Int)
    (gnwr : BlockHeader → Nat) :
    (UpdateTime pblock allowMin mtp now gnwr).nTime = max (mtp + 1) now ∧
    (allowMin = false → (UpdateTime pblock allowMin mtp now gnwr).nBits = pblock.nBits) ∧
    (allowMin = true → (UpdateTime pblock allowMin mtp now gnwr).nBits =
      gnwr { pblock with nTime := max (mtp + 1) now }) := by
  unfold UpdateTime
  cases allowMin <;> simp

/-- Witness for C9 at a concrete header, both with and without the
min-difficulty recomputation. -/
theorem updateTime_spec_wit :
    (UpdateTime ⟨5, 11⟩ false 20 9 (fun _ => 77)).nTime = max (20 + 1) 9 ∧
    (UpdateTime ⟨5, 11⟩ false 20 9 (fun _ => 77)).nBits = 11 ∧
    (UpdateTime ⟨5, 11⟩ true 20 9 (fun _ => 77)).nBits = 77 := by
  refine ⟨(updateTime_spec ⟨5, 11⟩ false 20 9 (fun _ => 77)).1,
    (updateTime_spec ⟨5, 11⟩ false 20 9 (fun _ => 77)).2.1 rfl,
    ?_⟩
  rw [(updateTime_spec ⟨5, 11⟩ true 20 9 (fun _ => 77)).2.2 rfl]

/-- C3 (the code evaluated at a failing input): a fork-mode template built
from a one-record snapshot finalizes with `vTxFees = [-1, 0]`: the `-1`
placeholder pushed at miner.cpp:235 ("updated at end") is never updated on the
fork path, so `fees[0] = -1` while `-Σ fees[i>0] = 0`. -/
theorem fork_fees_placeholder_bug :
    (createNewForkBlock cfgT envT (some fileT1)).map (fun st => st.vTxFees) =
      some [-1, 0] ∧ (-1 : Int) ≠ -([(0 : Int)].sum) := by
  exact ⟨by decide, by decide⟩

/-- C1 (amended): in a standard-mode template the element at index 0 is a
coinbase and no element at index i > 0 is one; in a fork-mode template the
element at index 0 is a coinbase and so is every synthetic transaction at
i > 0 (each is built with a single null-prevout input). -/
theorem template_coinbase_placement :
    (∀ (env : StdEnv) (pool : List MemTx) (fuel : Nat),
       (pool.map (·.hash)).Nodup →
       ((createNewBlock env pool fuel).vtx.headD default).IsCoinBase = true ∧
       ∀ t ∈ (createNewBlock env pool fuel).vtx.tail, t.IsCoinBase = false) ∧
    (∀ (cfg : ForkCfg) (envF : ForkEnv) (file : Option Bytes) (st : TState),
       createNewForkBlock cfg envF file = some st →
       ∀ t ∈ st.vtx, t.IsCoinBase = true) := by
  constructor
  · intro env pool fuel hn
    have hinv := selLoop_inv env pool fuel _ (initSel_inv env pool hn)
    exact ⟨rfl, fun t ht => hinv.tailCB t ht⟩
  · intro cfg envF file st h
    cases file with
    | none => cases h
    | some f =>
      simp only [createNewForkBlock] at h
      have h2 := Option.some.inj h
      by_cases hz : cfg.nHeight = cfg.zStart
      · rw [if_pos hz] at h2
        subst h2
        exact loopZ_allCB cfg envF f _ (forkInit cfg) (forkInit_allCB cfg)
      · rw [if_neg hz] at h2
        subst h2
        exact loopT_allCB cfg envF f _ (forkInit cfg) (forkInit_allCB cfg)

/-- Witness for C1 on the concrete two-transaction pool: the coinbase is
installed at index 0 and the selected pool transactions are not coinbases. -/
theorem template_coinbase_placement_wit :
    ((createNewBlock envS poolW 10).vtx.headD default).IsCoinBase = true ∧
    ∀ t ∈ (createNewBlock envS poolW 10).vtx.tail, t.IsCoinBase = false :=
  template_coinbase_placement.1 envS poolW 10 (by decide)

/-- C1 counterexample: the claim as stated ("no transaction at any index
i > 0 is a coinbase") fails for `CreateNewForkBlock`: the template built from
one transparent record has `vtx.length = 2` and the synthetic transaction at
index 1 is itself a coinbase. -/
theorem template_coinbase_placement_cex :
    ∃ st, createNewForkBlock cfgT envT (some fileT1) = some st ∧
      st.vtx.length = 2 ∧ (st.vtx.getD 1 default).IsCoinBase = true := by
  refine ⟨_, rfl, by decide, by decide⟩

/-- C2 (amended): in the transparent framing format the number of synthetic
coinbases is capped by `forkCBPerBlock` (the `while` condition at
miner.cpp:342), so the body holds at most `forkCBPerBlock + 1` transactions;
the shielded-framing loop at miner.cpp:244 carries no such condition (see the
counterexample). -/
theorem fork_cb_cap_transparent (cfg : ForkCfg) (env : ForkEnv) (f : Bytes)
    (st : TState) (hz : ¬ cfg.nHeight = cfg.zStart)
    (h : createNewForkBlock cfg env (some f) = some st) :
    st.nBlockTx ≤ cfg.forkCBPerBlock ∧ st.vtx.length ≤ cfg.forkCBPerBlock + 1 := by
  rw [createNewForkBlock_eq_T cfg env f hz] at h
  have h2 := Option.some.inj h
  subst h2
  have hc := loopT_count cfg env f (f.length + 1) (forkInit cfg)
    (Nat.zero_le _) rfl
  exact ⟨hc.1, by omega⟩

/-- Witness for C2 on the one-record transparent snapshot. -/
theorem fork_cb_cap_transparent_wit :
    ∃ st, createNewForkBlock cfgT envT (some fileT1) = some st ∧
      st.nBlockTx ≤ cfgT.forkCBPerBlock ∧
      st.vtx.length ≤ cfgT.forkCBPerBlock + 1 := by
  refine ⟨_, rfl, fork_cb_cap_transparent cfgT envT fileT1 _ (by decide) rfl⟩

/-- C2 counterexample: in the shielded framing format the cap is not applied:
with `forkCBPerBlock = 1`, a two-record shielded snapshot yields
`nBlockTx = 2` synthetic transactions. -/
theorem fork_cb_cap_shielded_cex :
    ∃ st, createNewForkBlock cfgZcap envZempty (some (recZ1 ++ recZ1)) = some st ∧
      cfgZcap.forkCBPerBlock < st.nBlockTx := by
  refine ⟨_, rfl, by decide⟩

theorem readB_bound (file : Bytes) (p k : Nat) (b : Bytes)
    (h : readB file p k = some b) : p + k ≤ file.length := by
  unfold readB at h
  split at h
  · assumption
  · cases h

/-- C4 (amended): for a transparent record whose three fields were read, the
emitted coinbase's single output value is 0 when the amount is 0 and
`(2·a) mod 2^64` when the amount is `a > 0` (the doubling is 64-bit unsigned
arithmetic); in particular it equals exactly `2·a` whenever `2·a < 2^64`, the
doubling being applied exactly once. -/
theorem doubling_rule (cfg : ForkCfg) (env : ForkEnv) (file : Bytes) (st : TState)
    (coin pk script : Bytes)
    (h1 : readB file st.pos 8 = some coin)
    (h2 : readB file (st.pos + 8) 8 = some pk)
    (hpk : leVal pk < 2 ^ 31)
    (h3 : readB file (st.pos + 16) (leVal pk) = some script)
    (h4 : st.nBlockSize + env.serSize (forkRecordTx cfg st.nBlockTx (leVal coin) script) <
      cfg.maxBlockSize - 1000)
    (h5 : st.nBlockSigOps + env.sigOps (forkRecordTx cfg st.nBlockTx (leVal coin) script) <
      cfg.maxBlockSigops) :
    (leVal coin = 0 →
      ((forkStepT cfg env file st).vtx.getD st.vtx.length default).vout.map (·.nValue)
        = [(0 : Int)]) ∧
    (0 < leVal coin →
      ((forkStepT cfg env file st).vtx.getD st.vtx.length default).vout.map (·.nValue)
        = [(((2 * leVal coin) % 2 ^ 64 : Nat) : Int)]) ∧
    (0 < leVal coin → 2 * leVal coin < 2 ^ 64 →
      ((forkStepT cfg env file st).vtx.getD st.vtx.length default).vout.map (·.nValue)
        = [((2 * leVal coin : Nat) : Int)]) := by
  have h32 : leVal pk % 2 ^ 32 = leVal pk := Nat.mod_eq_of_lt (by omega)
  have hstep : forkStepT cfg env file st =
      forkAfterReads cfg env file st (leVal coin) (leVal pk) script := by
    simp only [forkStepT, h1, h2, h32]
    rw [if_neg (by omega)]
    simp only [h3]
  have hvtx : (forkAfterReads cfg env file st (leVal coin) (leVal pk) script).vtx =
      st.vtx ++ [forkRecordTx cfg st.nBlockTx (leVal coin) script] := by
    unfold forkAfterReads
    rw [if_neg (by omega), if_neg (by omega)]
    cases hr : readB file (forkAppend cfg env st (leVal coin) (leVal pk) script).pos 1 with
    | none => rfl
    | some t =>
      dsimp only
      split <;> rfl
  rw [hstep, hvtx, getD_concat_self]
  refine ⟨?_, ?_, ?_⟩
  · intro hz
    simp [forkRecordTx, hz]
  · intro hpos
    have hne : leVal coin ≠ 0 := Nat.pos_iff_ne_zero.mp hpos
    simp [forkRecordTx, hne]
  · intro hpos hlt
    have hne : leVal coin ≠ 0 := Nat.pos_iff_ne_zero.mp hpos
    simp [forkRecordTx, hne]
    omega

/-- Witness for C4: the concrete record with amount 5 is emitted with output
value 10. -/
theorem doubling_rule_wit :
    ((forkStepT cfgT envT fileT1 (forkInit cfgT)).vtx.getD 1 default).vout.map
      (·.nValue) = [((2 * leVal ((fileT1.drop 0).take 8) : Nat) : Int)] :=
  (doubling_rule cfgT envT fileT1 (forkInit cfgT) _ _ _ rfl rfl (by decide) rfl
    (by decide) (by decide)).2.2 (by decide) (by decide)

/-- C4 counterexample: the claim as stated promises exactly `2·a` for every
`a > 0`, but at `a = 2^63` (a legal 8-byte amount field) the uint64 doubling
wraps and the emitted output value is 0, not `2·a = 2^64`. -/
theorem doubling_rule_cex :
    ∃ st, createNewForkBlock cfgT envT (some fileBig) = some st ∧
      (st.vtx.getD 1 default).vout.map (·.nValue) = [(0 : Int)] ∧
      (2 * 2 ^ 63 : Nat) ≠ 0 := by
  refine ⟨_, rfl, by decide, by decide⟩

/-- C5 (amended): in the transparent framing every template element's
scriptSig is `push(height) ‖ push(index) ‖ push(hashPid) when index = 0 ‖ OP_0`
(the dummy coinbase and the first synthetic record both use index 0 and hence
carry `hashPid`); for shielded records the decoded transaction is reshaped to
one null-prevout input that keeps the *decoded* scriptSig (height/index are
not encoded there), one zero-valued output keeping the decoded scriptPubKey,
with the shielded descriptors carried through unchanged. -/
theorem fork_scriptSig_encoding :
    (∀ (cfg : ForkCfg) (env : ForkEnv) (f : Bytes) (st : TState),
       ¬ cfg.nHeight = cfg.zStart →
       createNewForkBlock cfg env (some f) = some st →
       ∀ k, k < st.vtx.length →
         (st.vtx.getD k default).vin.map (·.scriptSig) =
           [coinbaseScriptSig cfg.nHeight (k - 1) cfg.hashPid]) ∧
    (∀ t : Transaction,
       (shapeShielded t).vin = [⟨none, ((t.vin.map (·.scriptSig)).headD [])⟩] ∧
       (shapeShielded t).vout = [⟨0, ((t.vout.map (·.scriptPubKey)).headD [])⟩] ∧
       (shapeShielded t).shielded = t.shielded) ∧
    (∀ (cfg : ForkCfg) (env : ForkEnv) (f : Bytes) (st : TState),
       cfg.nHeight = cfg.zStart →
       createNewForkBlock cfg env (some f) = some st →
       ∀ k, 1 ≤ k → k < st.vtx.length →
         ∃ raw, st.vtx.getD k default = shapeShielded (env.decode raw)) := by
  refine ⟨?_, ?_, ?_⟩
  · intro cfg env f st hz h k hk
    rw [createNewForkBlock_eq_T cfg env f hz] at h
    have h2 := Option.some.inj h
    subst h2
    refine loopT_scriptSig cfg env f (f.length + 1) (forkInit cfg) rfl ?_ k hk
    intro k0 hk0
    have hl : (forkInit cfg).vtx.length = 1 := rfl
    rw [hl] at hk0
    have hk00 : k0 = 0 := by omega
    subst hk00
    rfl
  · intro t
    exact ⟨shapeShielded_vin t, shapeShielded_vout t, shapeShielded_shielded t⟩
  · intro cfg env f st hz h k hk1 hk2
    rw [createNewForkBlock_eq_Z cfg env f hz] at h
    have h2 := Option.some.inj h
    subst h2
    refine loopZ_shapeInv cfg env f (f.length + 1) (forkInit cfg) ?_ k hk1 hk2
    intro k0 hk01 hk02
    have hl : (forkInit cfg).vtx.length = 1 := rfl
    rw [hl] at hk02
    omega

/-- Witness for C5: in the concrete one-record transparent template the
synthetic transaction at index 1 carries the height/index-0/hashPid
scriptSig. -/
theorem fork_scriptSig_encoding_wit :
    ((loopT cfgT envT fileT1 (fileT1.length + 1) (forkInit cfgT)).vtx.getD 1
      default).vin.map (·.scriptSig) =
      [coinbaseScriptSig cfgT.nHeight 0 cfgT.hashPid] :=
  fork_scriptSig_encoding.1 cfgT envT fileT1 _ (by decide)
    (createNewForkBlock_eq_T cfgT envT fileT1 (by decide)) 1 (by decide)

/-- C5 counterexample: the claim as stated says every synthetic coinbase's
scriptSig encodes the height and index, but a shielded record decoded to a
transaction with no inputs is emitted with an *empty* scriptSig, which is not
the height/index encoding. -/
theorem fork_scriptSig_shielded_cex :
    ∃ st, createNewForkBlock cfgZcap envZempty (some recZ1) = some st ∧
      1 < st.vtx.length ∧
      (st.vtx.getD 1 default).vin.map (·.scriptSig) = [([] : Bytes)] ∧
      ([] : Bytes) ≠ coinbaseScriptSig cfgZcap.nHeight 0 cfgZcap.hashPid := by
  refine ⟨_, rfl, by decide, by decide, by decide⟩

/-- C6 (amended): while reading a transparent snapshot record: truncation at
the 8-byte amount field ends cleanly iff the height is the last in the fork
window (`nHeight - ForkStartHeight = forkHeightRange`), regardless of the
record count; truncation at the 8-byte script-length field is SnapshotCorrupt;
the script-length value is truncated to a signed 32-bit int, and a negative
result (low 32 bits ≥ 2^31) aborts the build with `std::bad_array_new_length`
rather than SnapshotCorrupt; for a non-negative truncated size, truncation at
the script bytes is SnapshotCorrupt; truncation at the one-byte record
separator — or a separator byte other than 0x0A — is SnapshotCorrupt, though
the record's coinbase has already been appended; and when the record count
reaches `forkCBPerBlock` the loop stops cleanly before any further read. -/
theorem snapshot_truncation (cfg : ForkCfg) (env : ForkEnv) (file : Bytes)
    (st : TState) :
    (file.length < st.pos + 8 →
      forkStepT cfg env file st =
        { st with
          stop := some (if cfg.nHeight - cfg.forkStartHeight = cfg.forkHeightRange
                        then ForkStop.cleanEof else ForkStop.corrupt) }) ∧
    (st.pos + 8 ≤ file.length → file.length < st.pos + 16 →
      forkStepT cfg env file st = { st with stop := some ForkStop.corrupt }) ∧
    (∀ pk, readB file (st.pos + 8) 8 = some pk →
      2 ^ 31 ≤ leVal pk % 2 ^ 32 →
      forkStepT cfg env file st = { st with stop := some ForkStop.abortBadAlloc }) ∧
    (∀ pk, readB file (st.pos + 8) 8 = some pk →
      leVal pk % 2 ^ 32 < 2 ^ 31 →
      file.length < st.pos + 16 + leVal pk % 2 ^ 32 →
      forkStepT cfg env file st = { st with stop := some ForkStop.corrupt }) ∧
    (∀ coin pk script,
      readB file st.pos 8 = some coin →
      readB file (st.pos + 8) 8 = some pk →
      leVal pk % 2 ^ 32 < 2 ^ 31 →
      readB file (st.pos + 16) (leVal pk % 2 ^ 32) = some script →
      st.nBlockSize + env.serSize (forkRecordTx cfg st.nBlockTx (leVal coin) script) <
        cfg.maxBlockSize - 1000 →
      st.nBlockSigOps + env.sigOps (forkRecordTx cfg st.nBlockTx (leVal coin) script) <
        cfg.maxBlockSigops →
      file.length < st.pos + 16 + leVal pk % 2 ^ 32 + 1 →
      forkStepT cfg env file st =
        { forkAppend cfg env st (leVal coin) (leVal pk % 2 ^ 32) script with
          stop := some ForkStop.corrupt }) ∧
    (∀ coin pk script t,
      readB file st.pos 8 = some coin →
      readB file (st.pos + 8) 8 = some pk →
      leVal pk % 2 ^ 32 < 2 ^ 31 →
      readB file (st.pos + 16) (leVal pk % 2 ^ 32) = some script →
      st.nBlockSize + env.serSize (forkRecordTx cfg st.nBlockTx (leVal coin) script) <
        cfg.maxBlockSize - 1000 →
      st.nBlockSigOps + env.sigOps (forkRecordTx cfg st.nBlockTx (leVal coin) script) <
        cfg.maxBlockSigops →
      readB file (st.pos + 16 + leVal pk % 2 ^ 32) 1 = some t → ¬ t = [10] →
      forkStepT cfg env file st =
        { forkAppend cfg env st (leVal coin) (leVal pk % 2 ^ 32) script with
          stop := some ForkStop.corrupt }) ∧
    (∀ fuel, st.stop = none → cfg.forkCBPerBlock ≤ st.nBlockTx →
      loopT cfg env file (fuel + 1) st = { st with stop := some ForkStop.capCount }) := by
  refine ⟨?_, ?_, ?_, ?_, ?_, ?_, ?_⟩
  · intro h
    have hr : readB file st.pos 8 = none := by
      unfold readB
      rw [if_neg (by omega)]
    simp only [forkStepT, hr]
  · intro hle h
    have hr1 : readB file st.pos 8 = some ((file.drop st.pos).take 8) := by
      unfold readB
      rw [if_pos (by omega)]
    have hr2 : readB file (st.pos + 8) 8 = none := by
      unfold readB
      rw [if_neg (by omega)]
    simp only [forkStepT, hr1, hr2]
  · intro pk hpk hneg
    have hb := readB_bound file (st.pos + 8) 8 pk hpk
    have hr1 : readB file st.pos 8 = some ((file.drop st.pos).take 8) := by
      unfold readB
      rw [if_pos (by omega)]
    simp only [forkStepT, hr1, hpk]
    rw [if_pos hneg]
  · intro pk hpk hsmall h
    have hb := readB_bound file (st.pos + 8) 8 pk hpk
    have hr1 : readB file st.pos 8 = some ((file.drop st.pos).take 8) := by
      unfold readB
      rw [if_pos (by omega)]
    have hr3 : readB file (st.pos + 16) (leVal pk % 2 ^ 32) = none := by
      unfold readB
      rw [if_neg (by omega)]
    simp only [forkStepT, hr1, hpk]
    rw [if_neg (by omega)]
    simp only [hr3]
  · intro coin pk script hcoin hpk hsmall hscript hsize hsig hsep
    have hsepr : readB file
        (forkAppend cfg env st (leVal coin) (leVal pk % 2 ^ 32) script).pos 1 = none := by
      unfold readB
      rw [if_neg]
      show ¬ st.pos + 16 + leVal pk % 2 ^ 32 + 1 ≤ file.length
      omega
    simp only [forkStepT, hcoin, hpk]
    rw [if_neg (by omega)]
    simp only [hscript]
    unfold forkAfterReads
    rw [if_neg (by omega), if_neg (by omega)]
    simp only [hsepr]
  · intro coin pk script t hcoin hpk hsmall hscript hsize hsig hsep ht
    have hsepr : readB file
        (forkAppend cfg env st (leVal coin) (leVal pk % 2 ^ 32) script).pos 1 = some t := by
      show readB file (st.pos + 16 + leVal pk % 2 ^ 32) 1 = some t
      exact hsep
    simp only [forkStepT, hcoin, hpk]
    rw [if_neg (by omega)]
    simp only [hscript]
    unfold forkAfterReads
    rw [if_neg (by omega), if_neg (by omega)]
    simp only [hsepr]
    rw [if_neg ht]
  · intro fuel hstop hcap
    rw [loopT]
    rw [if_neg (by simp [hstop]), if_pos hcap]

/-- Witness for C6: an empty snapshot at a non-final fork height stops with
SnapshotCorrupt at the amount field, and a record truncated right before its
separator byte stops with SnapshotCorrupt after its coinbase was appended. -/
theorem snapshot_truncation_wit :
    (forkStepT cfgT envT [] (forkInit cfgT) =
      { forkInit cfgT with
        stop := some (if cfgT.nHeight - cfgT.forkStartHeight = cfgT.forkHeightRange
                      then ForkStop.cleanEof else ForkStop.corrupt) }) ∧
    (forkStepT cfgT envT fileNoSep (forkInit cfgT)).stop = some ForkStop.corrupt ∧
    (forkStepT cfgT envT fileNoSep (forkInit cfgT)).vtx.length = 2 := by
  refine ⟨(snapshot_truncation cfgT envT [] (forkInit cfgT)).1 (by decide), ?_, ?_⟩
  all_goals
    rw [(snapshot_truncation cfgT envT fileNoSep (forkInit cfgT)).2.2.2.2.1
      ((fileNoSep.drop 0).take 8) ((fileNoSep.drop 8).take 8) [170]
      rfl rfl (by decide) (by decide) (by decide) (by decide) (by decide)]
  decide

/-- C6 counterexample: the claim requires SnapshotCorrupt whenever the record
count has not reached the cap, but with 0 records read (cap 10) an empty file
at the *last* fork-window height ends cleanly. -/
theorem snapshot_truncation_cex :
    ∃ st, createNewForkBlock cfgLast envT (some []) = some st ∧
      st.nBlockTx = 0 ∧ 0 < cfgLast.forkCBPerBlock ∧
      st.stop = some ForkStop.cleanEof := by
  refine ⟨_, rfl, by decide, by decide, by decide⟩

/-- C7 (amended): the transparent-path fork coinbase scriptSig is structurally
at most 100 bytes (for any 32-bit height, any index below 2^63 and the 32-byte
hashPid), so the builder never needs to fail — and indeed the fork path
contains no OversizedScriptSig check at all (the only 100-byte assertion in
the file is in `IncrementExtraNonce`, on the standard path); shielded-path
coinbases inherit the decoded transaction's scriptSig unchecked, which can
exceed 100 bytes (see the counterexample). -/
theorem scriptSig_size_limit :
    (∀ (h : Int) (idx : Nat) (pid : Bytes),
       0 ≤ h → h < 2 ^ 31 → idx < 2 ^ 63 → pid.length = 32 →
       (coinbaseScriptSig h idx pid).length ≤ 100) ∧
    (∀ t : Transaction,
       (shapeShielded t).vin.map (·.scriptSig) =
         [(t.vin.map (·.scriptSig)).headD []]) ∧
    (∀ (hgt : Int) (nonce : Nat) (flags sig : Bytes),
       IncrementExtraNonce hgt nonce flags = some sig → sig.length ≤ 100) := by
  refine ⟨?_, ?_, ?_⟩
  · exact fun h idx pid h0 h1 h2 h3 => coinbaseScriptSig_length_le h idx pid h0 h1 h2 h3
  · intro t
    rw [shapeShielded_vin]
    rfl
  · intro hgt nonce flags sig hs
    unfold IncrementExtraNonce at hs
    split at hs
    · next hc =>
      rw [← Option.some.inj hs]
      exact hc
    · cases hs

/-- Witness for C7 at a concrete height and index. -/
theorem scriptSig_size_limit_wit :
    (coinbaseScriptSig 200000 3 (List.replicate 32 0)).length ≤ 100 :=
  scriptSig_size_limit.1 200000 3 (List.replicate 32 0)
    (by decide) (by decide) (by decide) (by decide)

/-- C7 counterexample: a shielded record whose decoded transaction carries a
101-byte scriptSig is emitted into the template without any failure — no
emitted-coinbase scriptSig bound holds, and no OversizedScriptSig error
exists on the fork path. -/
theorem scriptSig_size_limit_cex :
    ∃ st, createNewForkBlock cfgZcap envZbig (some recZ1) = some st ∧
      ((st.vtx.getD 1 default).vin.headD ⟨none, []⟩).scriptSig.length = 101 ∧
      st.stop = some ForkStop.corrupt ∧ 100 < 101 := by
  refine ⟨_, rfl, by decide, by decide, by decide⟩

/-- C8: every mempool transaction placed into the template has each parent
that was in the pool rather than in the chain placed at an earlier index
(`ordered`); a dependent transaction sits in the priority queue only once all
such parents are already in the body — the queue-entry condition of the
dependency-release mechanism (`qGood`); and the accepted-hash order is the
order of the transactions in the template body (`link`). -/
theorem mempool_dependency_order (env : StdEnv) (pool : List MemTx) (fuel : Nat)
    (hn : (pool.map (·.hash)).Nodup) :
    (∀ i, i < (selLoop env pool fuel (initSel env pool)).accepted.length →
       ∀ m, findTx pool
         ((selLoop env pool fuel (initSel env pool)).accepted.getD i 0) = some m →
       ∀ p ∈ txParents m.tx, depParB env pool p = true →
       p ∈ (selLoop env pool fuel (initSel env pool)).accepted.take i) ∧
    (∀ e ∈ (selLoop env pool fuel (initSel env pool)).queue,
       ∀ m, findTx pool e.2.2 = some m →
       ∀ p ∈ txParents m.tx, depParB env pool p = true →
       p ∈ (selLoop env pool fuel (initSel env pool)).accepted) ∧
    (∀ i, i < (selLoop env pool fuel (initSel env pool)).accepted.length →
       ∃ m, findTx pool
           ((selLoop env pool fuel (initSel env pool)).accepted.getD i 0) = some m ∧
         (selLoop env pool fuel (initSel env pool)).vtxTail.getD i default = m.tx) := by
  have h := selLoop_inv env pool fuel _ (initSel_inv env pool hn)
  exact ⟨h.ordered, fun e he m hm => (h.qGood e he m hm).2, h.link⟩

/-- Witness for C8: in the concrete pool where txB (hash 2) spends txA
(hash 1), txA is placed before txB. -/
theorem mempool_dependency_order_wit :
    (1 : Nat) ∈ (selLoop envS poolW 10 (initSel envS poolW)).accepted.take 1 :=
  (mempool_dependency_order envS poolW 10 (by decide)).1 1 (by decide)
    ⟨2, txB, 99, 9, true, false, true, true, 5⟩ (by decide) 1 (by decide) (by decide)

/-- C10: a transparent record with `script_len = 0` does not stop the reader
(the zero-length script read succeeds), and a synthetic coinbase with an empty
scriptPubKey is still emitted into the template. -/
theorem zero_length_script_record (cfg : ForkCfg) (env : ForkEnv) (file : Bytes)
    (st : TState) (coin pk : Bytes)
    (h1 : readB file st.pos 8 = some coin)
    (h2 : readB file (st.pos + 8) 8 = some pk)
    (h0 : leVal pk = 0)
    (h4 : st.nBlockSize + env.serSize (forkRecordTx cfg st.nBlockTx (leVal coin) []) <
      cfg.maxBlockSize - 1000)
    (h5 : st.nBlockSigOps + env.sigOps (forkRecordTx cfg st.nBlockTx (leVal coin) []) <
      cfg.maxBlockSigops)
    (h6 : readB file (st.pos + 16) 1 = some [10]) :
    (forkStepT cfg env file st).stop = none ∧
    (forkStepT cfg env file st).vtx =
      st.vtx ++ [forkRecordTx cfg st.nBlockTx (leVal coin) []] ∧
    ((forkStepT cfg env file st).vtx.getD st.vtx.length default).vout.map
      (·.scriptPubKey) = [([] : Bytes)] := by
  have h2b := readB_bound file (st.pos + 8) 8 pk h2
  have h032 : leVal pk % 2 ^ 32 = 0 := by rw [h0]; rfl
  have h3 : readB file (st.pos + 16) 0 = some [] := by
    unfold readB
    rw [if_pos (by omega)]
    simp
  have hstep : forkStepT cfg env file st =
      forkAfterReads cfg env file st (leVal coin) 0 [] := by
    simp only [forkStepT, h1, h2, h032]
    rw [if_neg (by omega)]
    simp only [h3]
  have hpos : (forkAppend cfg env st (leVal coin) 0 []).pos = st.pos + 16 := by
    simp [forkAppend]
  rw [hstep]
  unfold forkAfterReads
  rw [if_neg (by omega), if_neg (by omega), hpos, h6]
  dsimp only
  rw [if_pos rfl]
  refine ⟨rfl, rfl, ?_⟩
  show ((st.vtx ++ [forkRecordTx cfg st.nBlockTx (leVal coin) []]).getD
    st.vtx.length default).vout.map (·.scriptPubKey) = [([] : Bytes)]
  rw [getD_concat_self]
  rfl

/-- Witness for C10 on the concrete zero-script-length record. -/
theorem zero_length_script_record_wit :
    (forkStepT cfgT envT fileZeroLen (forkInit cfgT)).stop = none ∧
    (forkStepT cfgT envT fileZeroLen (forkInit cfgT)).vtx =
      (forkInit cfgT).vtx ++
        [forkRecordTx cfgT (forkInit cfgT).nBlockTx
          (leVal ((fileZeroLen.drop 0).take 8)) []] ∧
    ((forkStepT cfgT envT fileZeroLen (forkInit cfgT)).vtx.getD
      (forkInit cfgT).vtx.length default).vout.map (·.scriptPubKey) =
        [([] : Bytes)] :=
  zero_length_script_record cfgT envT fileZeroLen (forkInit cfgT) _ _
    rfl rfl (by decide) (by decide) (by decide) (by decide)
